import Mathlib

/-!
# Verification of the Taguchi robust-design engine

Shallow embedding of the analytical core of the taguchi Go library.

Modelling conventions:
* Go float64 values are modelled by real numbers.  The single place where the
  Go code manufactures an infinite float (math.Inf(1), returned by the SNR
  functions when the mean squared deviation is exactly zero) is modelled by
  the extended reals: SNR values live in EReal and the infinity is the top
  element.  Coercion from the reals commutes with +, -, * and / on EReal, so
  on finite values the EReal arithmetic is exactly real arithmetic.
* Go int values are modelled by Int (array entries) or Nat (counts, ids).
* A Go map read m[k] (which yields the zero value 0.0 for a missing key) is
  modelled by an association list with List.lookup and default 0.
* A Go slice or map index panic is modelled by Option: none is a runtime
  fault, some is a normal result.  Sequential Go loops that can fault are
  modelled by structural recursion threaded through Option.
* The repository holds two generations of the engine.  The legacy one
  (package directory taguchi/: types.go, snr.go, anova.go, and its
  experiment.go holding NewExperiment / AddResult / Analyze) reduces each
  orthogonal-array row by averaging per-result SNR values.  The newer generic
  engine (top-level experiment.go / anova.go, exercised by the test file)
  collects all observations of a row into one pool and computes that pool's
  SNR once (computeOASNR).  Both row reductions are embedded below.
-/

namespace Taguchi

noncomputable section

open scoped Classical

/-- Factor (legacy types.go) / ControlFactor (generic engine): a named,
ordered sequence of numeric levels. -/
structure ControlFactor where
  name : String
  levels : List ℝ

/-- NoiseFactor from types.go: same shape as a control factor. -/
structure NoiseFactor where
  name : String
  levels : List ℝ

/-- Trial from types.go: id plus control and noise assignments
(Go maps from factor name to level value). -/
structure Trial where
  id : ℕ
  control : List (String × ℝ)
  noise : List (String × ℝ)

/-- TrialResult from types.go: the trial together with its observations. -/
structure TrialResult where
  trial : Trial
  observations : List ℝ

/-- A Go map read m[k]: the stored value, or the zero value 0 when absent. -/
def mapGet (m : List (String × ℝ)) (k : String) : ℝ :=
  (m.lookup k).getD 0

/-- snrSmallerTheBetter from snr.go: msd := mean of squares, then
-10*log10(msd), with math.Inf(1) returned when msd is exactly zero
(the check precedes the logarithm). -/
def snrSmallerTheBetter (obs : List ℝ) : EReal :=
  let msd := (obs.map fun y => y * y).sum / (obs.length : ℝ)
  if msd = 0 then ⊤ else (((-10) * Real.logb 10 msd : ℝ) : EReal)

/-- The zero-observation substitution inside snrLargerTheBetter from snr.go:
a zero observation is replaced by 1e-10 before inversion. -/
def substZero (y : ℝ) : ℝ :=
  if y = 0 then 1e-10 else y

/-- snrLargerTheBetter from snr.go: msd := mean of 1/y'^2 over the
substituted observations, then -10*log10(msd); no infinity special case. -/
def snrLargerTheBetter (obs : List ℝ) : EReal :=
  let msd := (obs.map fun y => 1 / (substZero y * substZero y)).sum / (obs.length : ℝ)
  (((-10) * Real.logb 10 msd : ℝ) : EReal)

/-- snrNominalTheBest from snr.go: msd := mean of (y-target)^2, then
-10*log10(msd), with math.Inf(1) when msd is exactly zero. -/
def snrNominalTheBest (obs : List ℝ) (target : ℝ) : EReal :=
  let msd := (obs.map fun y => (y - target) * (y - target)).sum / (obs.length : ℝ)
  if msd = 0 then ⊤ else (((-10) * Real.logb 10 msd : ℝ) : EReal)

/-- OptimizationGoal from types.go (legacy engine): the three quality
characteristics. -/
inductive OptimizationGoal where
  | smallerTheBetter
  | largerTheBetter
  | nominalTheBest
deriving DecidableEq

/-- calculateSNR from snr.go (legacy engine): an empty observation pool
yields 0 for every goal; otherwise dispatch on the goal.  The Go method
reads e.Goal and e.Target, passed here as arguments. -/
def calculateSNR (goal : OptimizationGoal) (target : ℝ) (obs : List ℝ) : EReal :=
  if obs.length = 0 then 0
  else
    match goal with
    | .smallerTheBetter => snrSmallerTheBetter obs
    | .largerTheBetter => snrLargerTheBetter obs
    | .nominalTheBest => snrNominalTheBest obs target

/-- The goal values of the generic engine (the structs SmallerTheBetter,
LargerTheBetter, NominalTheBest{Target} implementing the Goal interface);
NominalTheBest carries its target. -/
inductive Goal where
  | smallerTheBetter
  | largerTheBetter
  | nominalTheBest (target : ℝ)

/-- Modelled from the spec: the CalculateSNR methods of the generic engine's
goal structs are not under src/ (only their callers and tests are); per
section 4.2 of the spec they compute the same three formulas as the legacy
snr.go, with the target attached to the Nominal-the-Best goal. -/
def Goal.CalculateSNR : Goal → List ℝ → EReal
  | .smallerTheBetter, obs => snrSmallerTheBetter obs
  | .largerTheBetter, obs => snrLargerTheBetter obs
  | .nominalTheBest t, obs => snrNominalTheBest obs t

/-- Experiment (analysis-relevant fields): control factors, noise factors,
goal, orthogonal array (entries are Go ints) and the recorded results.
The legacy struct carries the goal as OptimizationGoal plus a Target field;
those are passed explicitly to the legacy functions below. -/
structure Experiment where
  controlFactors : List ControlFactor
  noiseFactors : List NoiseFactor
  goal : Goal
  orthogonalArray : List (List ℤ)
  results : List TrialResult

/-- NewExperimentUsingArray (and NewExperimentFromFactorsUsingArray, whose
validation is identical): error when the array is empty, then error when it
has fewer columns (length of its first row) than control factors; otherwise
the experiment is built with an empty result log.  No other validation is
performed.  The reflective factorsFrom step of the generic constructor is an
external concern and the resulting factor list is taken as the argument. -/
def NewExperimentUsingArray (goal : Goal) (controlFactors : List ControlFactor)
    (orthogonalArray : List (List ℤ)) (noiseFactors : List NoiseFactor) : Option Experiment :=
  if orthogonalArray.length = 0 then none
  else if controlFactors.length > orthogonalArray.headI.length then none
  else some
    { controlFactors := controlFactors
      noiseFactors := noiseFactors
      goal := goal
      orthogonalArray := orthogonalArray
      results := [] }

/-- AddResult from experiment.go: append the trial and its observations to
the result log. -/
def AddResult (e : Experiment) (trial : Trial) (observations : List ℝ) : Experiment :=
  { e with results := e.results ++ [⟨trial, observations⟩] }

/-- The slice read levels[entry-1] for a 1-based Go array entry: none models
the index-out-of-range panic (entry below 1 or above the level count). -/
def levelAt (levels : List ℝ) (entry : ℤ) : Option ℝ :=
  if entry ≤ 0 then none else levels.get? (entry.toNat - 1)

/-- The row-matching loop shared by computeOASNR (generic experiment.go,
lines 132-139) and the legacy Analyze: factor j matches when the result's
control value for the factor's name equals the factor's level selected by
the j-th array entry; the loop stops at the first mismatch, so a fault in a
later column is never reached after a mismatch. -/
def rowMatch (factors : List ControlFactor) (row : List ℤ)
    (ctrl : List (String × ℝ)) : Option Bool :=
  match factors, row with
  | [], _ => some true
  | _ :: _, [] => none
  | f :: fs, e :: rest =>
    match levelAt f.levels e with
    | none => none
    | some lv => if mapGet ctrl f.name ≠ lv then some false else rowMatch fs rest ctrl

/-- The observation-pooling loop of computeOASNR: concatenate, in result
order, the observations of every result whose control assignment matches the
row. -/
def rowPool (factors : List ControlFactor) (row : List ℤ) :
    List TrialResult → Option (List ℝ)
  | [] => some []
  | r :: rs =>
    match rowMatch factors row r.trial.control with
    | none => none
    | some m =>
      match rowPool factors row rs with
      | none => none
      | some rest => some (if m then r.observations ++ rest else rest)

/-- Option-valued map over a list, modelling a sequential Go loop whose body
may fault. -/
def mapOpt (f : α → Option β) : List α → Option (List β)
  | [] => some []
  | a :: as =>
    match f a with
    | none => none
    | some b =>
      match mapOpt f as with
      | none => none
      | some bs => some (b :: bs)

/-- computeOASNR from the generic experiment.go: for every orthogonal-array
row, pool all matching observations and compute the SNR once on the pool
(0 for a row with no observations); the grand mean is the sum of the row
SNRs divided by the row count. -/
def computeOASNR (e : Experiment) : Option (List EReal × EReal) :=
  match mapOpt (fun row => rowPool e.controlFactors row e.results) e.orthogonalArray with
  | none => none
  | some pools =>
    let oaSNR := pools.map fun pool => if pool.length > 0 then e.goal.CalculateSNR pool else 0
    some (oaSNR, oaSNR.sum / (((e.orthogonalArray.length : ℕ) : ℝ) : EReal))

/-- The per-row reduction of the legacy Analyze (experiment.go of the legacy
package, lines 52-67): running sum of the per-result SNR values of the
matching results, together with how many results matched. -/
def oldRowStats (goal : OptimizationGoal) (target : ℝ) (factors : List ControlFactor)
    (row : List ℤ) : List TrialResult → Option (EReal × ℕ)
  | [] => some (0, 0)
  | r :: rs =>
    match rowMatch factors row r.trial.control with
    | none => none
    | some m =>
      match oldRowStats goal target factors row rs with
      | none => none
      | some sc =>
        some (if m then (sc.1 + calculateSNR goal target r.observations, sc.2 + 1) else sc)

/-- The legacy row SNR (experiment.go of the legacy package, lines 68-72):
the AVERAGE of the matching results' individual SNR values (sum divided by
the number of matching results), or 0 when nothing matched. -/
def oldAnalyzeRowSNR (goal : OptimizationGoal) (target : ℝ) (factors : List ControlFactor)
    (results : List TrialResult) (row : List ℤ) : Option EReal :=
  match oldRowStats goal target factors row results with
  | none => none
  | some sc => some (if sc.2 > 0 then sc.1 / (((sc.2 : ℕ) : ℝ) : EReal) else 0)

/-- getControlConfig from the legacy anova.go (trial-generation part):
convert one orthogonal-array row into the control assignment, mapping each
factor name to the level selected by the 1-based entry of its column; an
entry outside [1, level count] is an index panic (none). -/
def getControlConfig : List ControlFactor → List ℤ → Option (List (String × ℝ))
  | [], _ => some []
  | _ :: _, [] => none
  | f :: fs, e :: rest =>
    match levelAt f.levels e with
    | none => none
    | some lv =>
      match getControlConfig fs rest with
      | none => none
      | some more => some ((f.name, lv) :: more)

/-- generateNoiseCombinations from the legacy anova.go: the full factorial
cross-product of the noise factors' levels, the first declared factor being
the outermost loop (varying slowest) and recursion over the remaining
factors inside it.  The provisional ids the Go helper assigns to the
noise-only trials are discarded by the combining step and are not modelled;
each combination is the noise assignment map. -/
def generateNoiseCombinations : List NoiseFactor → List (List (String × ℝ))
  | [] => [[]]
  | nf :: rest =>
    nf.levels.flatMap fun lv =>
      (generateNoiseCombinations rest).map fun combo => (nf.name, lv) :: combo

/-- combineControlAndNoise from the legacy anova.go: for every
orthogonal-array row (outer loop) and every noise combination (inner loop)
emit one trial, with ids assigned sequentially from the running counter. -/
def combineAux (factors : List ControlFactor) (combos : List (List (String × ℝ))) :
    List (List ℤ) → ℕ → Option (List Trial)
  | [], _ => some []
  | row :: rest, id =>
    match getControlConfig factors row with
    | none => none
    | some cc =>
      match combineAux factors combos rest (id + combos.length) with
      | none => none
      | some more =>
        some ((combos.enum.map fun kc => ⟨id + kc.1, cc, kc.2⟩) ++ more)

/-- GenerateTrials from the legacy anova.go: noise combinations crossed with
the orthogonal-array rows, ids starting at 1. -/
def GenerateTrials (e : Experiment) : Option (List Trial) :=
  combineAux e.controlFactors (generateNoiseCombinations e.noiseFactors) e.orthogonalArray 1

/-- The noise cross-product has as many combinations as the product of the
level counts of the noise factors. -/
theorem length_generateNoiseCombinations (nfs : List NoiseFactor) :
    (generateNoiseCombinations nfs).length = (nfs.map fun nf => nf.levels.length).prod := by
  induction nfs with
  | nil => rfl
  | cons nf rest ih =>
    simp only [generateNoiseCombinations, List.length_flatMap, List.map_cons, List.prod_cons]
    simp only [Function.comp_def, List.length_map, List.map_const', List.sum_replicate,
      smul_eq_mul, ih]

/-- Positional law for flatMap over blocks of constant length B: the element
at index i*B+r is element r of the block generated from element i. -/
theorem flatMap_get?_block {α β : Type} (g : α → List β) (B : ℕ) (hg : ∀ a, (g a).length = B) :
    ∀ (ls : List α) (i r : ℕ), r < B →
      (ls.flatMap g).get? (i * B + r) = (ls.get? i).bind fun a => (g a).get? r := by
  intro ls
  induction ls with
  | nil =>
    intro i r _
    simp
  | cons a ls ih =>
    intro i r hr
    rw [List.flatMap_cons]
    cases i with
    | zero =>
      simp only [Nat.zero_mul, Nat.zero_add]
      rw [List.get?_append (by rw [hg a]; exact hr)]
      simp
    | succ i =>
      have harith : (i + 1) * B + r = B + (i * B + r) := by ring
      rw [harith, ← hg a, List.get?_append_right (Nat.le_add_right _ _), hg a,
        Nat.add_sub_cancel_left, ih i r hr]
      simp

/-- Specification of combineControlAndNoise: the trial list has one entry per
(row, combination) pair, ids run sequentially from the initial counter, and
the trial at position r*B+k holds the control configuration of row r and the
noise combination k. -/
theorem combineAux_spec (factors : List ControlFactor) (combos : List (List (String × ℝ))) :
    ∀ (oa : List (List ℤ)) (id : ℕ) (ts : List Trial),
      combineAux factors combos oa id = some ts →
      ts.length = oa.length * combos.length ∧
      ts.map Trial.id = List.range' id (oa.length * combos.length) ∧
      ∀ r row k combo, oa.get? r = some row → combos.get? k = some combo →
        ∃ cc, getControlConfig factors row = some cc ∧
          ts.get? (r * combos.length + k) =
            some ⟨id + (r * combos.length + k), cc, combo⟩ := by
  intro oa
  induction oa with
  | nil =>
    intro id ts h
    simp only [combineAux, Option.some_inj] at h
    subst h
    refine ⟨by simp, by simp, ?_⟩
    intro r row k combo hrow _
    simp at hrow
  | cons row0 rest ih =>
    intro id ts h
    unfold combineAux at h
    cases hcc : getControlConfig factors row0 with
    | none => rw [hcc] at h; simp at h
    | some cc =>
      rw [hcc] at h
      cases hmore : combineAux factors combos rest (id + combos.length) with
      | none => rw [hmore] at h; simp at h
      | some more =>
        rw [hmore] at h
        simp only [Option.some_inj] at h
        subst h
        obtain ⟨ihlen, ihids, ihpos⟩ := ih (id + combos.length) more hmore
        have hblocklen :
            (combos.enum.map fun kc => (⟨id + kc.1, cc, kc.2⟩ : Trial)).length =
              combos.length := by
          simp [List.enum_eq_enumFrom]
        have htot : (row0 :: rest).length * combos.length =
            combos.length + rest.length * combos.length := by
          simp only [List.length_cons]
          ring
        refine ⟨?_, ?_, ?_⟩
        · simp only [List.length_append, hblocklen, ihlen, htot]
        · rw [List.map_append, ihids]
          have hblockids :
              ((combos.enum.map fun kc => (⟨id + kc.1, cc, kc.2⟩ : Trial)).map Trial.id) =
                List.range' id combos.length := by
            rw [List.map_map]
            have : (Trial.id ∘ fun kc : ℕ × List (String × ℝ) =>
                (⟨id + kc.1, cc, kc.2⟩ : Trial)) = fun kc : ℕ × List (String × ℝ) => id + kc.1 := rfl
            rw [this]
            have h2 : (fun kc : ℕ × List (String × ℝ) => id + kc.1) =
                ((fun x => id + x) ∘ Prod.fst) := rfl
            rw [h2, ← List.map_map, List.enum_eq_enumFrom, List.enumFrom_map_fst,
              ← List.range_eq_range', ← List.range'_eq_map_range]
          rw [hblockids, htot, List.range'_append_1]
          rw [Nat.add_comm]
        · intro r row k combo hrow hcombo
          obtain ⟨hk, -⟩ := List.get?_eq_some.mp hcombo
          cases r with
          | zero =>
            simp only [List.get?_cons_zero, Option.some_inj] at hrow
            subst hrow
            refine ⟨cc, hcc, ?_⟩
            simp only [Nat.zero_mul, Nat.zero_add]
            rw [List.get?_append (by rw [hblocklen]; exact hk)]
            rw [List.get?_map, List.get?_enum, hcombo]
            rfl
          | succ r =>
            have harith : (r + 1) * combos.length + k =
                combos.length + (r * combos.length + k) := by ring
            simp only [List.get?_cons_succ] at hrow
            obtain ⟨cc2, hcc2, hpos⟩ := ihpos r row k combo hrow hcombo
            refine ⟨cc2, hcc2, ?_⟩
            rw [harith, ← hblocklen, List.get?_append_right (Nat.le_add_right _ _), hblocklen,
              Nat.add_sub_cancel_left]
            simpa [Nat.add_assoc] using hpos

/-- C5: GenerateTrials yields exactly rows x (product of noise level counts)
trials, whose ids run sequentially from 1 in row-major order: the trial at
position r*B+k (B the number of noise combinations) carries the control
configuration of orthogonal-array row r and noise combination k; and within
the noise enumeration the combination at index i*B'+r picks level i of the
first declared noise factor (so the first factor varies slowest and, by
recursion, the last varies fastest). -/
theorem generateTrials_count_ids_row_major (e : Experiment) (ts : List Trial)
    (h : GenerateTrials e = some ts) :
    (generateNoiseCombinations e.noiseFactors).length =
      (e.noiseFactors.map fun nf => nf.levels.length).prod ∧
    ts.length = e.orthogonalArray.length * (e.noiseFactors.map fun nf => nf.levels.length).prod ∧
    ts.map Trial.id = List.range' 1 ts.length ∧
    (∀ r row k combo, e.orthogonalArray.get? r = some row →
      (generateNoiseCombinations e.noiseFactors).get? k = some combo →
      ∃ cc, getControlConfig e.controlFactors row = some cc ∧
        ts.get? (r * (generateNoiseCombinations e.noiseFactors).length + k) =
          some ⟨1 + (r * (generateNoiseCombinations e.noiseFactors).length + k), cc, combo⟩) ∧
    (∀ (nf : NoiseFactor) (rest : List NoiseFactor) (i r : ℕ),
      r < (generateNoiseCombinations rest).length →
      (generateNoiseCombinations (nf :: rest)).get?
          (i * (generateNoiseCombinations rest).length + r) =
        (nf.levels.get? i).bind fun lv =>
          ((generateNoiseCombinations rest).get? r).map fun combo => (nf.name, lv) :: combo) := by
  obtain ⟨hlen, hids, hpos⟩ :=
    combineAux_spec e.controlFactors (generateNoiseCombinations e.noiseFactors)
      e.orthogonalArray 1 ts h
  refine ⟨length_generateNoiseCombinations e.noiseFactors, ?_, ?_, hpos, ?_⟩
  · rw [hlen, length_generateNoiseCombinations]
  · rw [hids, hlen]
  · intro nf rest i r hr
    have hstep := flatMap_get?_block
      (fun lv => (generateNoiseCombinations rest).map fun combo => (nf.name, lv) :: combo)
      (generateNoiseCombinations rest).length (fun lv => by rw [List.length_map])
      nf.levels i r hr
    rw [show generateNoiseCombinations (nf :: rest) =
        nf.levels.flatMap fun lv =>
          (generateNoiseCombinations rest).map fun combo => (nf.name, lv) :: combo from rfl]
    rw [hstep]
    simp only [List.get?_map]

/-- Concrete instance for the trial-generation theorem: one 2-level control
factor, rows [1] and [2], one 2-level noise factor: four trials with ids
1..4. -/
theorem generateTrials_count_ids_row_major_witness :
    GenerateTrials ⟨[⟨"A", [5, 7]⟩], [⟨"N", [0, 1]⟩], .smallerTheBetter, [[1], [2]], []⟩ =
      some [⟨1, [("A", 5)], [("N", 0)]⟩, ⟨2, [("A", 5)], [("N", 1)]⟩,
            ⟨3, [("A", 7)], [("N", 0)]⟩, ⟨4, [("A", 7)], [("N", 1)]⟩] ∧
    [(⟨1, [("A", 5)], [("N", 0)]⟩ : Trial), ⟨2, [("A", 5)], [("N", 1)]⟩,
      ⟨3, [("A", 7)], [("N", 0)]⟩, ⟨4, [("A", 7)], [("N", 1)]⟩].length =
      ([[1], [2]] : List (List ℤ)).length *
        (([⟨"N", [0, 1]⟩] : List NoiseFactor).map fun nf => nf.levels.length).prod ∧
    [(⟨1, [("A", 5)], [("N", 0)]⟩ : Trial), ⟨2, [("A", 5)], [("N", 1)]⟩,
      ⟨3, [("A", 7)], [("N", 0)]⟩, ⟨4, [("A", 7)], [("N", 1)]⟩].map Trial.id =
      List.range' 1 4 := by
  have h : GenerateTrials ⟨[⟨"A", [5, 7]⟩], [⟨"N", [0, 1]⟩], .smallerTheBetter, [[1], [2]], []⟩ =
      some [⟨1, [("A", 5)], [("N", 0)]⟩, ⟨2, [("A", 5)], [("N", 1)]⟩,
            ⟨3, [("A", 7)], [("N", 0)]⟩, ⟨4, [("A", 7)], [("N", 1)]⟩] := rfl
  obtain ⟨-, h2, h3, -, -⟩ :=
    generateTrials_count_ids_row_major _ _ h
  exact ⟨h, h2, h3⟩

/-- C7 (counterexample): an experiment whose single array entry 3 is out of
range for its 2-level factor is accepted by the constructor (no validation
of entry ranges happens at construction time), and trial generation on the
successfully constructed experiment then hits an index fault (none).  This
refutes the claim that out-of-range entries are construction-time validation
failures and never runtime faults. -/
theorem construction_accepts_out_of_range_entry :
    NewExperimentUsingArray .smallerTheBetter [⟨"A", [10, 20]⟩] [[3]] [] =
      some ⟨[⟨"A", [10, 20]⟩], [], .smallerTheBetter, [[3]], []⟩ ∧
    GenerateTrials ⟨[⟨"A", [10, 20]⟩], [], .smallerTheBetter, [[3]], []⟩ = none := by
  constructor
  · rfl
  · rfl

/-- C7 (amended): experiment construction validates only the shape of the
orthogonal array: it fails exactly when the array is empty or its first row
has fewer columns than there are control factors.  Entry ranges are not
checked at construction; as the companion counterexample shows, an
out-of-range entry surfaces later as an index fault during trial
generation. -/
theorem construction_validates_shape_only (goal : Goal) (cf : List ControlFactor)
    (oa : List (List ℤ)) (nf : List NoiseFactor) :
    (NewExperimentUsingArray goal cf oa nf).isSome ↔
      oa ≠ [] ∧ cf.length ≤ oa.headI.length := by
  unfold NewExperimentUsingArray
  split_ifs with h1 h2
  · simp only [Option.isSome_none, Bool.false_eq_true, false_iff, not_and]
    intro hne
    exact absurd (List.length_eq_zero.mp h1) hne
  · simp only [Option.isSome_none, Bool.false_eq_true, false_iff, not_and]
    intro _
    omega
  · simp only [Option.isSome_some, true_iff]
    refine ⟨?_, by omega⟩
    intro hnil
    rw [hnil] at h1
    simp at h1

/-- The level index chosen by a row for a named factor (computeANOVA inner
loop): the first factor position with that name gives the column; the
corresponding array entry minus one is the 0-based level index.  When the
name is absent the Go variable stays -1 (a later range guard skips the row);
a column beyond the row length is an index panic (outer none). -/
def levelIdxOf (factors : List ControlFactor) (fname : String) (row : List ℤ) : Option ℤ :=
  match factors.findIdx? fun g => g.name == fname with
  | none => some (-1)
  | some j => (row.get? j).map fun en => en - 1

/-- The accumulation loop of computeANOVA for one factor and one 0-based
level index li: sum of the row SNR values (read from oaSNR at the row
position, an index panic when absent) over the rows whose level index equals
li, together with the number of such rows.  Rows whose level index is out of
range for the factor are skipped by the Go guard and contribute to no li. -/
def levelStats (factors : List ControlFactor) (fname : String) (li : ℕ)
    (oaSNR : List EReal) : List (ℕ × List ℤ) → Option (EReal × ℕ)
  | [] => some (0, 0)
  | (i, row) :: rest =>
    match levelIdxOf factors fname row with
    | none => none
    | some idx =>
      match levelStats factors fname li oaSNR rest with
      | none => none
      | some sc =>
        if idx = (li : ℤ) then
          match oaSNR.get? i with
          | none => none
          | some sn => some (sc.1 + sn, sc.2 + 1)
        else some sc

/-- The per-factor block of computeANOVA: level means (sum/count, 0 for an
empty level), sum of squares (count x squared deviation of the level mean
from the grand mean, summed over levels) and degrees of freedom
(level count - 1). -/
structure FactorStat where
  ss : EReal
  df : ℤ
  levelMeans : List EReal

/-- Compute the FactorStat of one control factor from the orthogonal array
and the per-row SNR values. -/
def factorStats (factors : List ControlFactor) (oa : List (List ℤ)) (oaSNR : List EReal)
    (grandMean : EReal) (f : ControlFactor) : Option FactorStat :=
  match mapOpt (fun li => levelStats factors f.name li oaSNR oa.enum)
      (List.range f.levels.length) with
  | none => none
  | some stats =>
    let levelMeans := stats.map fun sc =>
      if sc.2 > 0 then sc.1 / (((sc.2 : ℕ) : ℝ) : EReal) else 0
    let ss := ((stats.zip levelMeans).map fun p =>
      (((p.1.2 : ℕ) : ℝ) : EReal) * (p.2 - grandMean) * (p.2 - grandMean)).sum
    some ⟨ss, (f.levels.length : ℤ) - 1, levelMeans⟩

/-- ANOVAResult from types.go.  The Go per-factor maps are modelled as
association lists in declared-factor order (factor names are unique within
an experiment per the data model; Go map iteration order only feeds
commutative sums, so the order is immaterial). -/
structure ANOVAResult where
  factorSS : List (String × EReal)
  factorDF : List (String × ℤ)
  factorMS : List (String × EReal)
  factorF : List (String × EReal)
  errorSS : EReal
  errorDF : ℤ
  errorMS : EReal

/-- computeANOVA from anova.go: total SS over the row SNR values, per-factor
statistics, error degrees of freedom (rows-1 minus the factor degrees of
freedom, floored at 1 BEFORE the division for the error mean square), error
SS (total SS minus each factor SS in turn) and the per-factor mean squares
and F values.  Returns the ANOVAResult together with the main effects per
factor (also returned by Go as the snrPerFactor map, the same object). -/
def computeANOVA (factors : List ControlFactor) (oa : List (List ℤ))
    (oaSNR : List EReal) (grandMean : EReal) :
    Option (ANOVAResult × List (String × List EReal)) :=
  match mapOpt (fun f => (factorStats factors oa oaSNR grandMean f).map fun s => (f.name, s))
      factors with
  | none => none
  | some per =>
    let totalSS := (oaSNR.map fun sn => (sn - grandMean) * (sn - grandMean)).sum
    let errorDF0 := ((oa.length : ℤ) - 1) - (per.map fun p => p.2.df).sum
    let errorDF : ℤ := if errorDF0 < 1 then 1 else errorDF0
    let errorSS := (per.map fun p => p.2.ss).foldl (fun acc ss => acc - ss) totalSS
    let errorMS := errorSS / (((errorDF : ℤ) : ℝ) : EReal)
    some
      ({ factorSS := per.map fun p => (p.1, p.2.ss)
         factorDF := per.map fun p => (p.1, p.2.df)
         factorMS := per.map fun p => (p.1, p.2.ss / (((p.2.df : ℤ) : ℝ) : EReal))
         factorF := per.map fun p =>
           (p.1, p.2.ss / (((p.2.df : ℤ) : ℝ) : EReal) / errorMS)
         errorSS := errorSS
         errorDF := errorDF
         errorMS := errorMS },
       per.map fun p => (p.1, p.2.levelMeans))

/-- One step of the scan in findOptimalLevels: keep the incoming (index,
value) pair only when its value is strictly greater than the best so far. -/
def bestStep (acc : ℕ × EReal) (iv : ℕ × EReal) : ℕ × EReal :=
  if acc.2 < iv.2 then iv else acc

/-- The index scan of findOptimalLevels: start from index 0 with the first
value and scan the whole enumerated list left to right; an empty main-effect
slice is an index panic (levels[0]). -/
def bestIdx : List EReal → Option ℕ
  | [] => none
  | x :: xs => some (((x :: xs).enum.foldl bestStep (0, x)).1)

/-- findOptimalLevels from experiment.go: for each control factor, look up
its main-effect slice (a missing name gives the Go nil slice, hence a fault
on levels[0]), take the index with the strictly greatest value (first
occurrence wins) and map it back to the factor's literal level value
(an out-of-range winning index would be an index panic). -/
def findOptimalLevels (factors : List ControlFactor)
    (mainEffects : List (String × List EReal)) : Option (List (String × ℝ)) :=
  mapOpt (fun f =>
    match bestIdx ((mainEffects.lookup f.name).getD []) with
    | none => none
    | some b =>
      match f.levels.get? b with
      | none => none
      | some lv => some (f.name, lv)) factors

/-- computeContributions from anova.go: each factor's share of the summed
factor SS, times 100; all zero when the total is not positive. -/
def computeContributions (anova : ANOVAResult) : List (String × EReal) :=
  let totalFactorSS := (anova.factorSS.map Prod.snd).sum
  if 0 < totalFactorSS then
    anova.factorSS.map fun p => (p.1, p.2 / totalFactorSS * 100)
  else
    anova.factorSS.map fun p => (p.1, 0)

/-- AnalysisResult from types.go (the snr field is the same object as the
main effects, as in Go). -/
structure AnalysisResult where
  optimalLevels : List (String × ℝ)
  snr : List (String × List EReal)
  mainEffects : List (String × List EReal)
  contributions : List (String × EReal)
  anova : ANOVAResult

/-- Analyze from the generic experiment.go: row SNRs and grand mean, then
ANOVA, then optimal levels, then contributions, assembled into the result
snapshot. -/
def Analyze (e : Experiment) : Option AnalysisResult :=
  match computeOASNR e with
  | none => none
  | some og =>
    match computeANOVA e.controlFactors e.orthogonalArray og.1 og.2 with
    | none => none
    | some am =>
      match findOptimalLevels e.controlFactors am.2 with
      | none => none
      | some optimal =>
        some ⟨optimal, am.2, am.2, computeContributions am.1, am.1⟩

/-- mapOpt succeeds exactly when every element does, pointwise. -/
theorem mapOpt_eq_some {α β : Type} {f : α → Option β} :
    ∀ {l : List α} {ys : List β}, mapOpt f l = some ys →
      List.Forall₂ (fun a b => f a = some b) l ys := by
  intro l
  induction l with
  | nil =>
    intro ys h
    simp only [mapOpt, Option.some_inj] at h
    subst h
    exact List.Forall₂.nil
  | cons a as ih =>
    intro ys h
    unfold mapOpt at h
    cases hfa : f a with
    | none => rw [hfa] at h; simp at h
    | some b =>
      rw [hfa] at h
      cases hrest : mapOpt f as with
      | none => rw [hrest] at h; simp at h
      | some bs =>
        rw [hrest] at h
        simp only [Option.some_inj] at h
        subst h
        exact List.Forall₂.cons hfa (ih hrest)

/-- Every output element of a successful mapOpt comes from some input. -/
theorem mapOpt_mem_some {α β : Type} {f : α → Option β} :
    ∀ {l : List α} {ys : List β}, mapOpt f l = some ys →
      ∀ y ∈ ys, ∃ a ∈ l, f a = some y := by
  intro l
  induction l with
  | nil =>
    intro ys h y hy
    simp only [mapOpt, Option.some_inj] at h
    subst h
    simp at hy
  | cons a as ih =>
    intro ys h y hy
    unfold mapOpt at h
    cases hfa : f a with
    | none => rw [hfa] at h; simp at h
    | some b =>
      rw [hfa] at h
      cases hrest : mapOpt f as with
      | none => rw [hrest] at h; simp at h
      | some bs =>
        rw [hrest] at h
        simp only [Option.some_inj] at h
        subst h
        rcases List.mem_cons.mp hy with hy | hy
        · exact ⟨a, List.mem_cons_self a as, by rw [hfa, hy]⟩
        · obtain ⟨a2, ha2, hfa2⟩ := ih hrest y hy
          exact ⟨a2, List.mem_cons_of_mem a ha2, hfa2⟩

/-- An extended real that is the coercion of a real (the finite values; the
floats-as-reals idealization under which the ANOVA identities hold). -/
def RealVal (x : EReal) : Prop :=
  ∃ r : ℝ, x = (r : EReal)

theorem realVal_zero : RealVal 0 :=
  ⟨0, by norm_cast⟩

theorem realVal_add {x y : EReal} (hx : RealVal x) (hy : RealVal y) : RealVal (x + y) := by
  obtain ⟨a, rfl⟩ := hx
  obtain ⟨b, rfl⟩ := hy
  exact ⟨a + b, by rw [EReal.coe_add]⟩

theorem realVal_sub {x y : EReal} (hx : RealVal x) (hy : RealVal y) : RealVal (x - y) := by
  obtain ⟨a, rfl⟩ := hx
  obtain ⟨b, rfl⟩ := hy
  exact ⟨a - b, by rw [EReal.coe_sub]⟩

theorem realVal_mul {x y : EReal} (hx : RealVal x) (hy : RealVal y) : RealVal (x * y) := by
  obtain ⟨a, rfl⟩ := hx
  obtain ⟨b, rfl⟩ := hy
  exact ⟨a * b, by rw [EReal.coe_mul]⟩

theorem realVal_div_coe {x : EReal} (hx : RealVal x) (b : ℝ) : RealVal (x / (b : EReal)) := by
  obtain ⟨a, rfl⟩ := hx
  exact ⟨a / b, rfl⟩

theorem realVal_sum : ∀ {l : List EReal}, (∀ x ∈ l, RealVal x) → RealVal l.sum := by
  intro l
  induction l with
  | nil => intro _; simpa using realVal_zero
  | cons x xs ih =>
    intro h
    rw [List.sum_cons]
    exact realVal_add (h x (List.mem_cons_self x xs))
      (ih fun y hy => h y (List.mem_cons_of_mem x hy))

/-- Subtracting finite values one by one equals subtracting their sum. -/
theorem foldl_sub_eq_sub_sum :
    ∀ (l : List EReal), (∀ x ∈ l, RealVal x) → ∀ (t : EReal), RealVal t →
      l.foldl (fun acc ss => acc - ss) t = t - l.sum := by
  intro l
  induction l with
  | nil =>
    intro _ t _
    simp only [List.foldl_nil, List.sum_nil]
    obtain ⟨a, rfl⟩ := ‹RealVal t›
    rw [show ((0 : EReal) = ((0 : ℝ) : EReal)) by norm_cast, ← EReal.coe_sub]
    norm_num
  | cons s ls ih =>
    intro h t ht
    rw [List.foldl_cons, List.sum_cons]
    have hs : RealVal s := h s (List.mem_cons_self s ls)
    have hls : ∀ x ∈ ls, RealVal x := fun y hy => h y (List.mem_cons_of_mem s hy)
    rw [ih hls (t - s) (realVal_sub ht hs)]
    obtain ⟨a, rfl⟩ := ht
    obtain ⟨b, rfl⟩ := hs
    obtain ⟨c, hc⟩ := realVal_sum hls
    rw [hc]
    norm_cast
    ring

/-- The running SNR sum of levelStats is finite when the row SNR values are. -/
theorem levelStats_fst_realVal {factors : List ControlFactor} {fname : String} {li : ℕ}
    {oaSNR : List EReal} (hsnr : ∀ sn ∈ oaSNR, RealVal sn) :
    ∀ {pairs : List (ℕ × List ℤ)} {sc : EReal × ℕ},
      levelStats factors fname li oaSNR pairs = some sc → RealVal sc.1 := by
  intro pairs
  induction pairs with
  | nil =>
    intro sc h
    simp only [levelStats, Option.some_inj] at h
    subst h
    exact realVal_zero
  | cons ir rest ih =>
    intro sc h
    unfold levelStats at h
    cases hidx : levelIdxOf factors fname ir.2 with
    | none => rw [hidx] at h; simp at h
    | some idx =>
      rw [hidx] at h
      cases hrest : levelStats factors fname li oaSNR rest with
      | none => rw [hrest] at h; simp at h
      | some sc0 =>
        rw [hrest] at h
        simp only [] at h
        by_cases hli : idx = (li : ℤ)
        · rw [if_pos hli] at h
          cases hget : oaSNR.get? ir.1 with
          | none => rw [hget] at h; simp at h
          | some sn =>
            rw [hget] at h
            simp only [Option.some_inj] at h
            subst h
            exact realVal_add (ih hrest) (hsnr sn (List.get?_mem hget))
        · rw [if_neg hli] at h
          simp only [Option.some_inj] at h
          subst h
          exact ih hrest

/-- A successful factorStats has a finite sum of squares when the row SNR
values and the grand mean are finite. -/
theorem factorStats_ss_realVal {factors : List ControlFactor} {oa : List (List ℤ)}
    {oaSNR : List EReal} {grandMean : EReal} {f : ControlFactor} {s : FactorStat}
    (hsnr : ∀ sn ∈ oaSNR, RealVal sn) (hgm : RealVal grandMean)
    (h : factorStats factors oa oaSNR grandMean f = some s) : RealVal s.ss := by
  unfold factorStats at h
  cases hst : mapOpt (fun li => levelStats factors f.name li oaSNR oa.enum)
      (List.range f.levels.length) with
  | none => rw [hst] at h; simp at h
  | some stats =>
    rw [hst] at h
    simp only [Option.some_inj] at h
    subst h
    apply realVal_sum
    intro x hx
    simp only [List.mem_map] at hx
    obtain ⟨p, hp, rfl⟩ := hx
    have hp1 := (List.of_mem_zip hp).1
    have hp2 := (List.of_mem_zip hp).2
    obtain ⟨li, -, hlv⟩ := mapOpt_mem_some hst p.1 hp1
    have h1 : RealVal p.1.1 := levelStats_fst_realVal hsnr hlv
    have hmean : RealVal p.2 := by
      simp only [List.mem_map] at hp2
      obtain ⟨sc, hscmem, heq⟩ := hp2
      rw [← heq]
      obtain ⟨li2, -, hlv2⟩ := mapOpt_mem_some hst sc hscmem
      by_cases hc : sc.2 > 0
      · rw [if_pos hc]
        exact realVal_div_coe (levelStats_fst_realVal hsnr hlv2) _
      · rw [if_neg hc]
        exact realVal_zero
    exact realVal_mul (realVal_mul ⟨_, rfl⟩ (realVal_sub hmean hgm)) (realVal_sub hmean hgm)

/-- A successful factorStats records degrees of freedom level count - 1. -/
theorem factorStats_df {factors : List ControlFactor} {oa : List (List ℤ)}
    {oaSNR : List EReal} {grandMean : EReal} {f : ControlFactor} {s : FactorStat}
    (h : factorStats factors oa oaSNR grandMean f = some s) :
    s.df = (f.levels.length : ℤ) - 1 := by
  unfold factorStats at h
  cases hst : mapOpt (fun li => levelStats factors f.name li oaSNR oa.enum)
      (List.range f.levels.length) with
  | none => rw [hst] at h; simp at h
  | some stats =>
    rw [hst] at h
    simp only [Option.some_inj] at h
    subst h
    rfl

/-- C3: in every analysis, a factor declared with k levels gets k-1 degrees
of freedom; the error degrees of freedom are (row count - 1) minus the sum
of the factor degrees of freedom, floored at 1; the error mean square is the
error sum of squares divided by the already-floored error degrees of freedom
(the floor precedes the division); and (on finite values, the floats-as-
reals idealization) the error sum of squares is the total sum of squares
minus the sum of all factor sums of squares. -/
theorem computeANOVA_df_and_error_terms (factors : List ControlFactor) (oa : List (List ℤ))
    (oaSNR : List EReal) (grandMean : EReal) (anova : ANOVAResult)
    (effects : List (String × List EReal))
    (h : computeANOVA factors oa oaSNR grandMean = some (anova, effects)) :
    anova.factorDF = factors.map (fun f => (f.name, (f.levels.length : ℤ) - 1)) ∧
    anova.errorDF =
      max 1 (((oa.length : ℤ) - 1) - (factors.map fun f => (f.levels.length : ℤ) - 1).sum) ∧
    anova.errorMS = anova.errorSS / (((anova.errorDF : ℤ) : ℝ) : EReal) ∧
    ((∀ sn ∈ oaSNR, RealVal sn) → RealVal grandMean →
      anova.errorSS =
        (oaSNR.map fun sn => (sn - grandMean) * (sn - grandMean)).sum
          - (anova.factorSS.map Prod.snd).sum) := by
  unfold computeANOVA at h
  cases hper : mapOpt (fun f => (factorStats factors oa oaSNR grandMean f).map
      fun s => (f.name, s)) factors with
  | none => rw [hper] at h; simp at h
  | some per =>
    rw [hper] at h
    simp only [Option.some_inj, Prod.mk.injEq] at h
    obtain ⟨hanova, heffects⟩ := h
    subst hanova
    have key : ∀ (l : List ControlFactor) (pl : List (String × FactorStat)),
        List.Forall₂ (fun f p =>
          ((factorStats factors oa oaSNR grandMean f).map fun s => (f.name, s)) = some p)
          l pl →
        pl.map (fun p => (p.1, p.2.df)) =
          l.map (fun f => (f.name, (f.levels.length : ℤ) - 1)) ∧
        (∀ p ∈ pl, (∀ sn ∈ oaSNR, RealVal sn) → RealVal grandMean → RealVal p.2.ss) := by
      intro l pl hf
      induction hf with
      | nil => exact ⟨rfl, by simp⟩
      | @cons f p l2 pl2 hab hrest ihr =>
        obtain ⟨s, hs, hps⟩ := Option.map_eq_some'.mp hab
        refine ⟨?_, ?_⟩
        · simp only [List.map_cons, ihr.1, ← hps, factorStats_df hs]
        · intro q hq hsnr hgm
          rcases List.mem_cons.mp hq with hq | hq
          · subst hq
            rw [← hps]
            exact factorStats_ss_realVal hsnr hgm hs
          · exact ihr.2 q hq hsnr hgm
    obtain ⟨keydf, keyss⟩ := key factors per (mapOpt_eq_some hper)
    have hdf : (per.map fun p => (p.1, p.2.df)).map Prod.snd =
        (factors.map fun f => ((f.name, (f.levels.length : ℤ) - 1))).map Prod.snd := by
      rw [keydf]
    simp only [List.map_map] at hdf
    refine ⟨keydf, ?_, rfl, ?_⟩
    · show (if ((oa.length : ℤ) - 1) - (per.map fun p => p.2.df).sum < 1 then 1
        else ((oa.length : ℤ) - 1) - (per.map fun p => p.2.df).sum) = _
      have hsum : (per.map fun p => p.2.df).sum =
          (factors.map fun f => (f.levels.length : ℤ) - 1).sum := by
        have := congrArg List.sum hdf
        simpa [Function.comp_def] using this
      rw [hsum]
      rcases lt_or_ge ((((oa.length : ℤ) - 1) -
          (factors.map fun f => (f.levels.length : ℤ) - 1).sum)) 1 with hlt | hge
      · rw [if_pos hlt, max_eq_left (le_of_lt hlt)]
      · rw [if_neg (not_lt.mpr hge), max_eq_right hge]
    · intro hsnr hgm
      show (per.map fun p => p.2.ss).foldl (fun acc ss => acc - ss) _ = _
      have hssl : ∀ x ∈ per.map fun p => p.2.ss, RealVal x := by
        intro x hx
        simp only [List.mem_map] at hx
        obtain ⟨p, hp, rfl⟩ := hx
        exact keyss p hp hsnr hgm
      have htot : RealVal ((oaSNR.map fun sn => (sn - grandMean) * (sn - grandMean)).sum) := by
        apply realVal_sum
        intro x hx
        simp only [List.mem_map] at hx
        obtain ⟨sn, hsn, rfl⟩ := hx
        exact realVal_mul (realVal_sub (hsnr sn hsn) hgm) (realVal_sub (hsnr sn hsn) hgm)
      rw [foldl_sub_eq_sub_sum _ hssl _ htot]
      have hmap : (per.map fun p => (p.1, p.2.ss)).map Prod.snd = per.map fun p => p.2.ss := by
        rw [List.map_map]
        rfl
      rw [hmap]

/-- Concrete instance for the ANOVA theorem: one 2-level factor on a
2-row array with zero row SNRs: factor DF 1, error DF floored to 1, error
mean square = error SS / floored error DF. -/
theorem computeANOVA_df_and_error_terms_witness :
    ∃ v, computeANOVA [⟨"A", [1, 2]⟩] [[1], [2]] [0, 0] 0 = some v ∧
      v.1.factorDF = [("A", (2 : ℤ) - 1)] ∧
      v.1.errorDF = max 1 (((2 : ℤ) - 1) - ((2 : ℤ) - 1)) ∧
      v.1.errorMS = v.1.errorSS / (((v.1.errorDF : ℤ) : ℝ) : EReal) := by
  have hs : (computeANOVA [⟨"A", [1, 2]⟩] [[1], [2]] [0, 0] 0).isSome = true := rfl
  obtain ⟨v, hv⟩ := Option.isSome_iff_exists.mp hs
  obtain ⟨c1, c2, c3, -⟩ :=
    computeANOVA_df_and_error_terms [⟨"A", [1, 2]⟩] [[1], [2]] [0, 0] 0 v.1 v.2 (by rw [hv])
  refine ⟨v, hv, ?_, ?_, c3⟩
  · rw [c1]
    rfl
  · rw [c2]
    rfl

/-- The sum of a list of real coercions is the coercion of the real sum. -/
theorem coe_list_sum : ∀ (rs : List ℝ),
    ((rs.map fun r : ℝ => (r : EReal)).sum) = ((rs.sum : ℝ) : EReal) := by
  intro rs
  induction rs with
  | nil => simp
  | cons r rest ih =>
    simp only [List.map_cons, List.sum_cons, ih, ← EReal.coe_add]

/-- C4: each contribution is its factor's SS divided by the total factor SS
times 100; the contributions sum to exactly 100 whenever the total factor SS
is positive (finite values, the floats-as-reals idealization), and every
contribution is 0 when the total factor SS is zero. -/
theorem computeContributions_formula_and_sum (anova : ANOVAResult) (rs : List ℝ)
    (hfin : anova.factorSS.map Prod.snd = rs.map fun r : ℝ => (r : EReal)) :
    (0 < (anova.factorSS.map Prod.snd).sum →
      (computeContributions anova).map Prod.snd =
        anova.factorSS.map fun p => p.2 / (anova.factorSS.map Prod.snd).sum * 100) ∧
    (0 < (anova.factorSS.map Prod.snd).sum →
      ((computeContributions anova).map Prod.snd).sum = 100) ∧
    ((anova.factorSS.map Prod.snd).sum = 0 → ∀ p ∈ computeContributions anova, p.2 = 0) := by
  have hform : 0 < (anova.factorSS.map Prod.snd).sum →
      (computeContributions anova).map Prod.snd =
        anova.factorSS.map fun p => p.2 / (anova.factorSS.map Prod.snd).sum * 100 := by
    intro hpos
    unfold computeContributions
    rw [if_pos hpos, List.map_map]
    rfl
  refine ⟨hform, ?_, ?_⟩
  · intro hpos
    rw [hform hpos]
    have hS : (anova.factorSS.map Prod.snd).sum = ((rs.sum : ℝ) : EReal) := by
      rw [hfin, coe_list_sum]
    have hpos' : (0 : ℝ) < rs.sum := by
      rw [hS] at hpos
      exact_mod_cast hpos
    have hmm : anova.factorSS.map (fun p => p.2 / (anova.factorSS.map Prod.snd).sum * 100) =
        (anova.factorSS.map Prod.snd).map fun x => x / ((rs.sum : ℝ) : EReal) * 100 := by
      rw [List.map_map, hS]
      rfl
    rw [hmm, hfin, List.map_map]
    have hpt : ∀ r ∈ rs,
        ((fun x => x / ((rs.sum : ℝ) : EReal) * 100) ∘ fun a : ℝ => (a : EReal)) r =
        (fun a : ℝ => ((a / rs.sum * 100 : ℝ) : EReal)) r := by
      intro r _
      simp only [Function.comp_apply]
      rw [← EReal.coe_div]
      norm_cast
    rw [List.map_congr_left hpt]
    rw [show (fun a : ℝ => ((a / rs.sum * 100 : ℝ) : EReal)) =
        ((fun r : ℝ => (r : EReal)) ∘ fun a : ℝ => a / rs.sum * 100) from rfl]
    rw [← List.map_map, coe_list_sum]
    have hsum : (rs.map fun r : ℝ => r / rs.sum * 100).sum = 100 := by
      have h1 : (rs.map fun r : ℝ => r / rs.sum * 100) =
          rs.map fun r : ℝ => r * (100 / rs.sum) := by
        apply List.map_congr_left
        intro r _
        ring
      rw [h1]
      have h2 : (rs.map fun r : ℝ => r * (100 / rs.sum)).sum =
          (rs.map id).sum * (100 / rs.sum) := List.sum_map_mul_right rs id (100 / rs.sum)
      rw [h2, List.map_id]
      field_simp
    rw [hsum]
    norm_cast
  · intro hzero
    unfold computeContributions
    rw [if_neg (by rw [hzero]; exact lt_irrefl 0)]
    intro p hp
    simp only [List.mem_map] at hp
    obtain ⟨q, -, rfl⟩ := hp
    rfl

/-- Concrete instance for the contributions theorem: factor SS 1 and 3 give
a positive total and contributions summing to 100. -/
theorem computeContributions_formula_and_sum_witness :
    (0 : EReal) <
      ((([("A", ((1 : ℝ) : EReal)), ("B", ((3 : ℝ) : EReal))] : List (String × EReal)).map
        Prod.snd).sum) ∧
    ((computeContributions ⟨[("A", ((1 : ℝ) : EReal)), ("B", ((3 : ℝ) : EReal))],
        [], [], [], 0, 1, 0⟩).map Prod.snd).sum = 100 := by
  have hpos : (0 : EReal) <
      ((([("A", ((1 : ℝ) : EReal)), ("B", ((3 : ℝ) : EReal))] : List (String × EReal)).map
        Prod.snd).sum) := by
    simp only [List.map_cons, List.map_nil, List.sum_cons, List.sum_nil, add_zero,
      ← EReal.coe_add]
    exact_mod_cast (by norm_num : (0 : ℝ) < 1 + 3)
  refine ⟨hpos, ?_⟩
  exact (computeContributions_formula_and_sum
    ⟨[("A", ((1 : ℝ) : EReal)), ("B", ((3 : ℝ) : EReal))], [], [], [], 0, 1, 0⟩
    [1, 3] rfl).2.1 hpos

/-- Every pair of an enumFrom has index at least the start. -/
theorem mem_enumFrom_fst_ge {α : Type} :
    ∀ (l : List α) (n : ℕ) (p : ℕ × α), p ∈ l.enumFrom n → n ≤ p.1 := by
  intro l
  induction l with
  | nil => intro n p hp; simp at hp
  | cons x xs ih =>
    intro n p hp
    rw [List.enumFrom_cons] at hp
    rcases List.mem_cons.mp hp with hp | hp
    · subst hp; exact le_refl n
    · exact le_of_lt (Nat.lt_of_lt_of_le (Nat.lt_succ_self n) (ih (n + 1) p hp))

/-- The indices of an enumFrom are pairwise strictly increasing. -/
theorem pairwise_fst_lt_enumFrom {α : Type} :
    ∀ (l : List α) (n : ℕ), List.Pairwise (fun p q : ℕ × α => p.1 < q.1) (l.enumFrom n) := by
  intro l
  induction l with
  | nil => intro n; simp
  | cons x xs ih =>
    intro n
    rw [List.enumFrom_cons]
    refine List.Pairwise.cons ?_ (ih (n + 1))
    intro q hq
    exact Nat.lt_of_lt_of_le (Nat.lt_succ_self n) (mem_enumFrom_fst_ge xs (n + 1) q hq)

/-- Every pair of an enumFrom is the element at its index. -/
theorem mem_enumFrom_get {α : Type} :
    ∀ (l : List α) (n : ℕ) (p : ℕ × α), p ∈ l.enumFrom n →
      ∃ m, p.1 = n + m ∧ l.get? m = some p.2 := by
  intro l
  induction l with
  | nil => intro n p hp; simp at hp
  | cons x xs ih =>
    intro n p hp
    rw [List.enumFrom_cons] at hp
    rcases List.mem_cons.mp hp with hp | hp
    · subst hp
      exact ⟨0, by simp, by simp⟩
    · obtain ⟨m, hm, hget⟩ := ih (n + 1) p hp
      exact ⟨m + 1, by omega, by simpa using hget⟩

/-- The scan of findOptimalLevels keeps the first strict maximum: the result
of the fold is the accumulator or a scanned pair, dominates all of them, and
strictly dominates every pair of strictly smaller index. -/
theorem foldl_bestStep_spec :
    ∀ (ps : List (ℕ × EReal)) (a : ℕ × EReal),
      (∀ p ∈ ps, a.1 < p.1) → List.Pairwise (fun p q : ℕ × EReal => p.1 < q.1) ps →
      (ps.foldl bestStep a = a ∨ ps.foldl bestStep a ∈ ps) ∧
      a.2 ≤ (ps.foldl bestStep a).2 ∧
      (∀ p ∈ ps, p.2 ≤ (ps.foldl bestStep a).2) ∧
      (∀ p ∈ ps, p.1 < (ps.foldl bestStep a).1 → p.2 < (ps.foldl bestStep a).2) ∧
      (ps.foldl bestStep a ≠ a → a.2 < (ps.foldl bestStep a).2) ∧
      (ps.foldl bestStep a = a ∨ a.1 < (ps.foldl bestStep a).1) := by
  intro ps
  induction ps with
  | nil =>
    intro a _ _
    simp
  | cons p ps ih =>
    intro a hlt hpw
    rw [List.foldl_cons]
    have hpw2 := List.pairwise_cons.mp hpw
    by_cases hc : a.2 < p.2
    · have ha' : bestStep a p = p := if_pos hc
      rw [ha']
      obtain ⟨ih1, ih2, ih3, ih4, ih5, ih6⟩ := ih p hpw2.1 hpw2.2
      set r := ps.foldl bestStep p with hr
      refine ⟨?_, ?_, ?_, ?_, ?_, ?_⟩
      · rcases ih1 with h | h
        · exact Or.inr (h ▸ List.mem_cons_self p ps)
        · exact Or.inr (List.mem_cons_of_mem p h)
      · exact le_of_lt (lt_of_lt_of_le hc ih2)
      · intro q hq
        rcases List.mem_cons.mp hq with hq | hq
        · exact hq ▸ ih2
        · exact ih3 q hq
      · intro q hq hq1
        rcases List.mem_cons.mp hq with hq | hq
        · subst hq
          have hrq : r ≠ q := by
            intro hcontra
            rw [hcontra] at hq1
            exact lt_irrefl _ hq1
          exact lt_of_le_of_lt (le_refl q.2) (ih5 hrq)
        · exact ih4 q hq hq1
      · intro _
        exact lt_of_lt_of_le hc ih2
      · rcases ih6 with h | h
        · exact Or.inr (h ▸ hlt p (List.mem_cons_self p ps))
        · exact Or.inr (Nat.lt_trans (hlt p (List.mem_cons_self p ps)) h)
    · have ha' : bestStep a p = a := if_neg hc
      rw [ha']
      obtain ⟨ih1, ih2, ih3, ih4, ih5, ih6⟩ := ih a (fun q hq => hlt q (List.mem_cons_of_mem p hq))
        hpw2.2
      set r := ps.foldl bestStep a with hr
      have hpa : p.2 ≤ a.2 := not_lt.mp hc
      refine ⟨?_, ih2, ?_, ?_, ih5, ?_⟩
      · rcases ih1 with h | h
        · exact Or.inl h
        · exact Or.inr (List.mem_cons_of_mem p h)
      · intro q hq
        rcases List.mem_cons.mp hq with hq | hq
        · exact hq ▸ le_trans hpa ih2
        · exact ih3 q hq
      · intro q hq hq1
        rcases List.mem_cons.mp hq with hq | hq
        · subst hq
          rcases ih6 with h | h
          · rw [h] at hq1
            exact absurd hq1 (not_lt.mpr (le_of_lt (hlt q (List.mem_cons_self q ps))))
          · have hra : r ≠ a := by
              intro hcontra
              rw [hcontra] at h
              exact lt_irrefl _ h
            exact lt_of_le_of_lt hpa (ih5 hra)
        · exact ih4 q hq hq1
      · rcases ih6 with h | h
        · exact Or.inl h
        · exact Or.inr h

/-- The index j is the position of the first occurrence of the maximum of
the list: the value there dominates every entry and strictly dominates every
earlier entry. -/
def IsFirstArgmax (l : List EReal) (j : ℕ) : Prop :=
  ∃ v, l.get? j = some v ∧ (∀ k w, l.get? k = some w → w ≤ v) ∧
    (∀ k w, l.get? k = some w → k < j → w < v)

/-- bestIdx returns the first argmax of a non-empty list. -/
theorem bestIdx_first_argmax (x : EReal) (xs : List EReal) :
    ∃ j, bestIdx (x :: xs) = some j ∧ IsFirstArgmax (x :: xs) j := by
  have henum : (x :: xs).enum = (0, x) :: xs.enumFrom 1 := List.enum_cons
  have hstep0 : bestStep (0, x) (0, x) = (0, x) := if_neg (lt_irrefl x)
  have hfold : (x :: xs).enum.foldl bestStep (0, x) = (xs.enumFrom 1).foldl bestStep (0, x) := by
    rw [henum, List.foldl_cons, hstep0]
  obtain ⟨m1, m2, m3, m4, m5, m6⟩ :=
    foldl_bestStep_spec (xs.enumFrom 1) (0, x)
      (fun p hp => Nat.lt_of_lt_of_le Nat.zero_lt_one (mem_enumFrom_fst_ge xs 1 p hp))
      (pairwise_fst_lt_enumFrom xs 1)
  set r := (xs.enumFrom 1).foldl bestStep (0, x) with hrdef
  have hget : (x :: xs).get? r.1 = some r.2 := by
    rcases m1 with h | h
    · rw [h]
      rfl
    · obtain ⟨m, hm, hg⟩ := mem_enumFrom_get xs 1 r h
      rw [hm, Nat.add_comm 1 m]
      simpa using hg
  refine ⟨r.1, ?_, r.2, hget, ?_, ?_⟩
  · simp only [bestIdx, hfold]
  · intro k w hw
    cases k with
    | zero =>
      simp only [List.get?_cons_zero, Option.some_inj] at hw
      subst hw
      exact m2
    | succ k =>
      simp only [List.get?_cons_succ] at hw
      have hm : (1 + k, w) ∈ xs.enumFrom 1 := by
        have h2 : (xs.enumFrom 1).get? k = some (1 + k, w) := by
          rw [List.get?_eq_getElem?, List.getElem?_enumFrom, ← List.get?_eq_getElem?, hw]
          rfl
        exact List.get?_mem h2
      exact m3 (1 + k, w) hm
  · intro k w hw hk
    cases k with
    | zero =>
      simp only [List.get?_cons_zero, Option.some_inj] at hw
      subst hw
      have : r ≠ (0, x) := by
        intro hcontra
        rw [hcontra] at hk
        simp at hk
      exact m5 this
    | succ k =>
      simp only [List.get?_cons_succ] at hw
      have hm : (1 + k, w) ∈ xs.enumFrom 1 := by
        have h2 : (xs.enumFrom 1).get? k = some (1 + k, w) := by
          rw [List.get?_eq_getElem?, List.getElem?_enumFrom, ← List.get?_eq_getElem?, hw]
          rfl
        exact List.get?_mem h2
      exact m4 (1 + k, w) hm (by omega)

/-- C6: for factors with at least one declared level (and main-effect slices
of matching length, as Analyze produces), optimal-level selection succeeds,
gives every declared control factor an entry, and each entry carries the
factor's literal level value at the index of the strictly greatest
main-effect value, ties broken toward the lowest index (the first occurrence
of the maximum). -/
theorem findOptimalLevels_first_max (factors : List ControlFactor)
    (effects : List (String × List EReal))
    (h : ∀ f ∈ factors, f.levels ≠ [] ∧
      ((effects.lookup f.name).getD []).length = f.levels.length) :
    ∃ m, findOptimalLevels factors effects = some m ∧
      List.Forall₂ (fun (f : ControlFactor) (p : String × ℝ) => p.1 = f.name ∧
        ∃ j, IsFirstArgmax ((effects.lookup f.name).getD []) j ∧
          f.levels.get? j = some p.2) factors m := by
  induction factors with
  | nil => exact ⟨[], rfl, List.Forall₂.nil⟩
  | cons f fs ih =>
    obtain ⟨hne, hlen⟩ := h f (List.mem_cons_self f fs)
    obtain ⟨m2, hm2, hfa⟩ := ih fun g hg => h g (List.mem_cons_of_mem f hg)
    cases hle : (effects.lookup f.name).getD [] with
    | nil =>
      exfalso
      rw [hle] at hlen
      exact hne (List.length_eq_zero.mp hlen.symm)
    | cons e es =>
      obtain ⟨j, hbij, hbarg⟩ := bestIdx_first_argmax e es
      have hj : j < f.levels.length := by
        obtain ⟨v, hv, -, -⟩ := hbarg
        obtain ⟨hjlt, -⟩ := List.get?_eq_some.mp hv
        rw [hle] at hlen
        omega
      refine ⟨(f.name, f.levels.get ⟨j, hj⟩) :: m2, ?_, ?_⟩
      · unfold findOptimalLevels at hm2 ⊢
        unfold mapOpt
        rw [hle, hbij]
        simp only [List.get?_eq_get hj, hm2]
      · refine List.Forall₂.cons ⟨rfl, j, ?_, List.get?_eq_get hj⟩ hfa
        rw [hle]
        exact hbarg

/-- Concrete instance for the optimal-level theorem: factor A with levels
1 and 2 and main effects [0, 5]: selection succeeds and picks level 2 (index
1, the strict maximum). -/
theorem findOptimalLevels_first_max_witness :
    ∃ m, findOptimalLevels [⟨"A", [1, 2]⟩] [("A", [(0 : EReal), (5 : EReal)])] = some m ∧
      List.Forall₂ (fun (f : ControlFactor) (p : String × ℝ) => p.1 = f.name ∧
        ∃ j, IsFirstArgmax ((([("A", [(0 : EReal), (5 : EReal)])].lookup f.name)).getD []) j ∧
          f.levels.get? j = some p.2) [⟨"A", [1, 2]⟩] m := by
  refine findOptimalLevels_first_max [⟨"A", [1, 2]⟩] [("A", [(0 : EReal), (5 : EReal)])] ?_
  intro f hf
  rw [List.mem_singleton] at hf
  subst hf
  exact ⟨by simp, rfl⟩

/-- Row matching reads the result's control assignment only through map
lookups. -/
theorem rowMatch_congr :
    ∀ (factors : List ControlFactor) (row : List ℤ) (c1 c2 : List (String × ℝ)),
      (∀ k, c1.lookup k = c2.lookup k) →
      rowMatch factors row c1 = rowMatch factors row c2 := by
  intro factors
  induction factors with
  | nil => intro row c1 c2 _; rfl
  | cons f fs ih =>
    intro row c1 c2 hc
    cases row with
    | nil => rfl
    | cons e rest =>
      unfold rowMatch
      cases levelAt f.levels e with
      | none => rfl
      | some lv =>
        have hmg : mapGet c1 f.name = mapGet c2 f.name := by
          unfold mapGet
          rw [hc]
        rw [hmg, ih rest c1 c2 hc]

/-- The pooled observations of a row depend only on the control assignments
and observations of the results. -/
theorem rowPool_congr (factors : List ControlFactor) (row : List ℤ) :
    ∀ {rs1 rs2 : List TrialResult},
      List.Forall₂ (fun a b =>
        (∀ k, a.trial.control.lookup k = b.trial.control.lookup k) ∧
        a.observations = b.observations) rs1 rs2 →
      rowPool factors row rs1 = rowPool factors row rs2 := by
  intro rs1 rs2 hf
  induction hf with
  | nil => rfl
  | @cons a b l1 l2 hab hrest ihr =>
    unfold rowPool
    rw [rowMatch_congr factors row a.trial.control b.trial.control hab.1, ihr, hab.2]

/-- mapOpt only depends on the pointwise behaviour of its function. -/
theorem mapOpt_congr {α β : Type} {f g : α → Option β} :
    ∀ {l : List α}, (∀ a ∈ l, f a = g a) → mapOpt f l = mapOpt g l := by
  intro l
  induction l with
  | nil => intro _; rfl
  | cons a as ih =>
    intro h
    unfold mapOpt
    rw [h a (List.mem_cons_self a as), ih fun b hb => h b (List.mem_cons_of_mem a hb)]

/-- C10: Analyze depends only on the control assignment and the observations
of each recorded result: two observation logs that agree pairwise on those
(as maps: equal lookups), but differ arbitrarily in trial id and noise
assignment, produce identical analysis results for the same experiment
configuration. -/
theorem analyze_ignores_trial_id_and_noise (cf : List ControlFactor) (nf : List NoiseFactor)
    (g : Goal) (oa : List (List ℤ)) (res1 res2 : List TrialResult)
    (h : List.Forall₂ (fun a b =>
      (∀ k, a.trial.control.lookup k = b.trial.control.lookup k) ∧
      a.observations = b.observations) res1 res2) :
    Analyze ⟨cf, nf, g, oa, res1⟩ = Analyze ⟨cf, nf, g, oa, res2⟩ := by
  have hoasnr : computeOASNR ⟨cf, nf, g, oa, res1⟩ = computeOASNR ⟨cf, nf, g, oa, res2⟩ := by
    unfold computeOASNR
    rw [mapOpt_congr fun row _ => rowPool_congr cf row h]
  unfold Analyze
  rw [hoasnr]

/-- Concrete instance for the dependency theorem: two logs equal up to trial
id and noise assignment analyze identically. -/
theorem analyze_ignores_trial_id_and_noise_witness :
    Analyze ⟨[⟨"A", [1, 2]⟩], [⟨"N", [0, 1]⟩], .smallerTheBetter, [[1], [2]],
        [⟨⟨1, [("A", 1)], [("N", 0)]⟩, [2, 4]⟩]⟩ =
      Analyze ⟨[⟨"A", [1, 2]⟩], [⟨"N", [0, 1]⟩], .smallerTheBetter, [[1], [2]],
        [⟨⟨99, [("A", 1)], [("Z", 7)]⟩, [2, 4]⟩]⟩ :=
  analyze_ignores_trial_id_and_noise _ _ _ _ _ _
    (List.Forall₂.cons ⟨fun _ => rfl, rfl⟩ List.Forall₂.nil)

/-- The 2-level factor of the worked example from the spec and the test
file: one control factor A with levels 1 and 2. -/
def factA : ControlFactor := ⟨"A", [1, 2]⟩

/-- The recorded results of the worked example: observations [2,4] and [6,8]
for the two noise trials of the row A=1, and [1,1], [1,1] for A=2. -/
def scenarioResults : List TrialResult :=
  [⟨⟨1, [("A", 1)], [("N", 0)]⟩, [2, 4]⟩,
   ⟨⟨2, [("A", 1)], [("N", 1)]⟩, [6, 8]⟩,
   ⟨⟨3, [("A", 2)], [("N", 0)]⟩, [1, 1]⟩,
   ⟨⟨4, [("A", 2)], [("N", 1)]⟩, [1, 1]⟩]

/-- The worked-example experiment: Smaller-the-Better, rows [1] and [2], one
2-level noise factor. -/
def scenarioExp : Experiment :=
  { controlFactors := [factA]
    noiseFactors := [⟨"N", [0, 1]⟩]
    goal := .smallerTheBetter
    orthogonalArray := [[1], [2]]
    results := scenarioResults }

/-- C1 (code_bug): on the worked example, the generic engine's computeOASNR
gives the first row the SNR of the pooled observations [2,4,6,8], namely
-10*log10(30); the legacy Analyze instead averages the two per-result SNR
values -10*log10(10) and -10*log10(50) for the same row, and that average
differs from the pooled value.  So the legacy engine violates the claim that
the per-row SNR is never the average of per-result SNR values, while the
generic engine satisfies it. -/
theorem row_snr_pooled_vs_legacy_average :
    (∃ rest gm, computeOASNR scenarioExp =
      some (((((-10) * Real.logb 10 30 : ℝ) : EReal) :: rest, gm))) ∧
    oldAnalyzeRowSNR .smallerTheBetter 0 [factA] scenarioResults [1] =
      some ((((((-10) * Real.logb 10 50) + ((-10) * Real.logb 10 10)) / 2 : ℝ) : EReal)) ∧
    (((((-10) * Real.logb 10 50) + ((-10) * Real.logb 10 10)) / 2 : ℝ) : EReal) ≠
      (((-10) * Real.logb 10 30 : ℝ) : EReal) := by
  refine ⟨?_, ?_, ?_⟩
  · have hpool1 : rowPool [factA] [1] scenarioResults = some [2, 4, 6, 8] := by
      simp [rowPool, scenarioResults, rowMatch, factA, levelAt, mapGet]
    have hpool2 : rowPool [factA] [2] scenarioResults = some [1, 1, 1, 1] := by
      simp [rowPool, scenarioResults, rowMatch, factA, levelAt, mapGet]
    have hsnr : snrSmallerTheBetter [2, 4, 6, 8] = (((-10) * Real.logb 10 30 : ℝ) : EReal) := by
      simp only [snrSmallerTheBetter, List.map_cons, List.map_nil, List.sum_cons, List.sum_nil,
        List.length_cons, List.length_nil]
      norm_num
    have hsnr2 : snrSmallerTheBetter [1, 1, 1, 1] = (((-10) * Real.logb 10 1 : ℝ) : EReal) := by
      simp only [snrSmallerTheBetter, List.map_cons, List.map_nil, List.sum_cons, List.sum_nil,
        List.length_cons, List.length_nil]
      norm_num
    refine ⟨[(((-10) * Real.logb 10 1 : ℝ) : EReal)],
      ((((-10) * Real.logb 10 30 : ℝ) : EReal)
        + ((((-10) * Real.logb 10 1 : ℝ) : EReal) + 0)) / (((2 : ℕ) : ℝ) : EReal), ?_⟩
    simp only [computeOASNR, scenarioExp, mapOpt, hpool1, hpool2]
    simp only [Goal.CalculateSNR, List.map_cons, List.map_nil, List.length_cons, List.length_nil]
    norm_num [hsnr, hsnr2]
  · have hstats : oldRowStats .smallerTheBetter 0 [factA] [1] scenarioResults =
        some ((0 : EReal) + calculateSNR .smallerTheBetter 0 [6, 8]
          + calculateSNR .smallerTheBetter 0 [2, 4], 2) := by
      simp [oldRowStats, scenarioResults, rowMatch, factA, levelAt, mapGet]
    have h1 : calculateSNR .smallerTheBetter 0 [6, 8] = (((-10) * Real.logb 10 50 : ℝ) : EReal) := by
      simp only [calculateSNR, snrSmallerTheBetter, List.map_cons, List.map_nil, List.sum_cons,
        List.sum_nil, List.length_cons, List.length_nil]
      norm_num
    have h2 : calculateSNR .smallerTheBetter 0 [2, 4] = (((-10) * Real.logb 10 10 : ℝ) : EReal) := by
      simp only [calculateSNR, snrSmallerTheBetter, List.map_cons, List.map_nil, List.sum_cons,
        List.sum_nil, List.length_cons, List.length_nil]
      norm_num
    simp only [oldAnalyzeRowSNR, hstats, h1, h2]
    rw [show ((0 : EReal) = ((0 : ℝ) : EReal)) from rfl]
    rw [← EReal.coe_add, ← EReal.coe_add, ← EReal.coe_div]
    norm_num
  · rw [ne_eq, EReal.coe_eq_coe_iff]
    intro h
    have h500 : Real.logb 10 50 + Real.logb 10 10 = Real.logb 10 500 := by
      unfold Real.logb
      rw [div_add_div_same, ← Real.log_mul (by norm_num) (by norm_num)]
      norm_num
    have h900 : Real.logb 10 30 + Real.logb 10 30 = Real.logb 10 900 := by
      unfold Real.logb
      rw [div_add_div_same, ← Real.log_mul (by norm_num) (by norm_num)]
      norm_num
    have hlt : Real.logb 10 500 < Real.logb 10 900 :=
      Real.logb_lt_logb (by norm_num) (by norm_num) (by norm_num)
    have heq : Real.logb 10 500 = Real.logb 10 900 := by
      rw [← h500, ← h900]
      nlinarith [h]
    linarith

/-- C2: for every non-empty observation pool, Smaller-the-Better SNR is
-10*log10(mean of squares) and Nominal-the-Best SNR is -10*log10(mean of
squared deviations from the target), except that a mean of exactly zero
yields the infinite value instead of a logarithm of zero; the zero check
precedes the logarithm (the infinite branch contains no logarithm). -/
theorem snr_smaller_nominal_zero_guard_before_log (y : ℝ) (ys : List ℝ) (t : ℝ) :
    (snrSmallerTheBetter (y :: ys) =
      if ((y :: ys).map fun a => a ^ 2).sum / (((y :: ys).length : ℕ) : ℝ) = 0 then (⊤ : EReal)
      else (((-10) * Real.logb 10
        ((((y :: ys).map fun a => a ^ 2).sum / (((y :: ys).length : ℕ) : ℝ))) : ℝ) : EReal)) ∧
    (snrNominalTheBest (y :: ys) t =
      if ((y :: ys).map fun a => (a - t) ^ 2).sum / (((y :: ys).length : ℕ) : ℝ) = 0 then (⊤ : EReal)
      else (((-10) * Real.logb 10
        ((((y :: ys).map fun a => (a - t) ^ 2).sum / (((y :: ys).length : ℕ) : ℝ))) : ℝ) : EReal)) := by
  constructor
  · simp only [snrSmallerTheBetter, pow_two]
  · simp only [snrNominalTheBest, pow_two]

/-- Concrete instance for the SNR zero-guard theorem: a nonzero pool takes
the logarithmic branch and an all-on-target pool takes the infinite
branch. -/
theorem snr_smaller_nominal_zero_guard_before_log_witness :
    snrSmallerTheBetter [3] =
      (((-10) * Real.logb 10
        ((([3] : List ℝ).map fun a => a ^ 2).sum / ((([3] : List ℝ).length : ℕ) : ℝ)) : ℝ)
        : EReal) ∧
    snrNominalTheBest [5] 5 = ⊤ := by
  constructor
  · rw [(snr_smaller_nominal_zero_guard_before_log 3 [] 5).1, if_neg (by norm_num)]
  · rw [(snr_smaller_nominal_zero_guard_before_log 5 [] 5).2, if_pos (by norm_num)]

/-- C8: for every non-empty pool under Larger-the-Better, zero observations
are replaced by the positive epsilon 1e-10 before inversion (so every
substituted value is nonzero and the division is well defined), the result
is -10*log10(mean of 1/y'^2) over the substituted values, and there is no
infinite special case for this goal. -/
theorem snr_larger_substitutes_zero_no_inf (y : ℝ) (ys : List ℝ) :
    (∀ a ∈ y :: ys, substZero a ≠ 0) ∧
    snrLargerTheBetter (y :: ys) =
      (((-10) * Real.logb 10
        (((y :: ys).map fun a => 1 / substZero a ^ 2).sum / (((y :: ys).length : ℕ) : ℝ)) : ℝ) : EReal) ∧
    snrLargerTheBetter (y :: ys) ≠ ⊤ := by
  refine ⟨?_, ?_, ?_⟩
  · intro a _
    unfold substZero
    split
    · norm_num
    · assumption
  · simp only [snrLargerTheBetter, pow_two]
  · simp only [snrLargerTheBetter]
    exact EReal.coe_ne_top _

/-- Concrete instance for the Larger-the-Better theorem: a zero observation
is substituted (nonzero), and the SNR of [0, 2] is finite. -/
theorem snr_larger_substitutes_zero_no_inf_witness :
    substZero 0 ≠ 0 ∧ snrLargerTheBetter [0, 2] ≠ ⊤ :=
  ⟨(snr_larger_substitutes_zero_no_inf 0 [2]).1 0 (List.mem_cons_self 0 [2]),
    (snr_larger_substitutes_zero_no_inf 0 [2]).2.2⟩

/-- C9: for every optimization goal, the SNR of an empty observation pool is
the value 0 (not an error). -/
theorem calculateSNR_empty_pool_zero (goal : OptimizationGoal) (target : ℝ) :
    calculateSNR goal target [] = 0 := by
  simp [calculateSNR]

end

end Taguchi
